import Mathlib

/-!
Verification of the BB84 simulation scripts `bb84_sim.py` (honest channel)
and `TEST/PARTE_2/bb84_eve_sim.py` (intercept-resend eavesdropper).

Shallow embedding conventions:
* a bit (Python int 0/1) is a `Bool`;
* a basis (Python `'R'`/`'D'`) is the two-element type `BB84.Basis`;
* the measurement list of Bob (`List[Optional[int]]`) is a `List (Option Bool)`;
* the global `random` stream is made explicit: each function that draws
  randomness takes a stream parameter indexed by position / draw counter
  (`Nat → Bool` for `random.randint(0,1)`, `Nat → Rat` for `random.random()`,
  `Nat → Nat` for the draws inside `random.sample`);
* Python floats are modelled as `Rat`; `round` is the Python
  round-half-to-even (`pyRound`);
* a Python function that can raise (`ZeroDivisionError` from `m / k`,
  `ValueError` from `random.sample`, `IndexError` from `raw_B[i]`) returns
  an `Option`, `none` marking the raised exception;
* the Python `zip` truncates to the shortest input; the recursive embeddings
  stop as soon as one list is exhausted, reproducing that behaviour.
-/

namespace BB84

/-- The two polarization bases `('R', 'D')` of `bb84_sim.py`. -/
inductive Basis where
  | R : Basis
  | D : Basis
deriving DecidableEq

/-- Loop body of `measure` in `bb84_sim.py`: walks the three zipped lists,
keeping the Alice bit (XOR a noise flip drawn as `random.random() < noise_flip_prob`)
when the bases agree and recording `None` otherwise.  `i` counts positions so the
noise stream `noise` can be consulted per position. -/
def measureGo (noise : Nat → Rat) (p : Rat) :
    Nat → List Bool → List Basis → List Basis → List (Option Bool)
  | i, bit :: bits, Ba :: ras, Bb :: rbs =>
      (if Ba = Bb then some (xor bit (decide (noise i < p))) else none) ::
        measureGo noise p (i + 1) bits ras rbs
  | _, _, _, _ => []

/-- `measure(bits, alice_bases, bob_bases, noise_flip_prob)` from `bb84_sim.py`:
the measured list of Bob, `None` where the bases differ. -/
def measure (bits : List Bool) (alice_bases bob_bases : List Basis)
    (noise_flip_prob : Rat) (noise : Nat → Rat) : List (Option Bool) :=
  measureGo noise noise_flip_prob 0 bits alice_bases bob_bases

/-- Loop body of `extract_raw_key` (identical in both scripts): enumerates the
four zipped lists and keeps position `i` when the bases agree and the
measurement is not `None`. -/
def extractGo :
    Nat → List Bool → List (Option Bool) → List Basis → List Basis →
      List Bool × List Bool × List Nat
  | i, a :: as, m :: ms, Ba :: ras, Bb :: rbs =>
      let r := extractGo (i + 1) as ms ras rbs
      if Ba = Bb then
        match m with
        | some v => (a :: r.1, v :: r.2.1, i :: r.2.2)
        | none => r
      else r
  | _, _, _, _, _ => ([], [], [])

/-- `extract_raw_key(alice_bits, measured, alice_bases, bob_bases)` from
`bb84_sim.py`: returns `(raw_key_alice, raw_key_bob, kept_indices)`. -/
def extract_raw_key (alice_bits : List Bool) (measured : List (Option Bool))
    (alice_bases bob_bases : List Basis) : List Bool × List Bool × List Nat :=
  extractGo 0 alice_bits measured alice_bases bob_bases

/-- The `sample_fraction: float | int` parameter of `sample_and_check` /
`sample_and_qber`: the Python `isinstance(sample_fraction, int)` test becomes a
case split on this sum type. -/
inductive SampleSpec where
  | int (k : Int) : SampleSpec
  | frac (q : Rat) : SampleSpec

/-- Python 3 `round` on the exact rational value: round half to even. -/
def pyRound (q : Rat) : Int :=
  let f := q.floor
  let r := q - (f : Rat)
  if r < 1 / 2 then f
  else if 1 / 2 < r then f + 1
  else if f % 2 = 0 then f else f + 1

/-- The unclamped sample size of `sample_and_check` / `sample_and_qber`:
`sample_fraction if isinstance(sample_fraction, int) else max(1, int(round(n * sample_fraction)))`. -/
def specSize (spec : SampleSpec) (n : Nat) : Int :=
  match spec with
  | .int k => k
  | .frac q => max 1 (pyRound ((n : Rat) * q))

/-- Model of the draws performed by `random.sample`: repeatedly pick a random
remaining element of the pool (using the draw stream `rnd`) and remove it, so
the result is a without-replacement sample. -/
def drawSample (rnd : Nat → Nat) : Nat → List Nat → List Nat
  | 0, _ => []
  | k + 1, pool =>
      if pool = [] then []
      else
        let x := pool.getD (rnd k % pool.length) 0
        x :: drawSample rnd k (pool.erase x)

/-- `random.sample(range(n), k)`: raises `ValueError` (here `none`) when
`k < 0` or `k > n`, otherwise returns `k` distinct members of `range(n)`. -/
def pySample (n : Nat) (k : Int) (rnd : Nat → Nat) : Option (List Nat) :=
  if k < 0 ∨ (n : Int) < k then none
  else some (drawSample rnd k.toNat (List.range n))

/-- The Python generator `sum(1 for i in idxs if raw_A[i] != raw_B[i])`:
walks the sampled indices in order; an index past the end of either list
raises `IndexError`, modelled as `none` (this happens when `raw_B` is shorter
than `raw_A`, since the sampled indices all lie below `len(raw_A)`). -/
def countMismatches (raw_A raw_B : List Bool) : List Nat → Option Nat
  | [] => some 0
  | i :: is =>
      match raw_A[i]?, raw_B[i]? with
      | some a, some b =>
          match countMismatches raw_A raw_B is with
          | none => none
          | some c => some ((if a != b then 1 else 0) + c)
      | _, _ => none

/-- `sample_and_check(raw_A, raw_B, sample_fraction)` from `bb84_sim.py`.
Returns `some (qber, mismatches, k)`; `none` models a raised exception
(`ValueError` from `random.sample` when the clamped `k` is negative,
`IndexError` from `raw_B[i]` when `raw_B` is shorter than the sampled index
range, or `ZeroDivisionError` from `mismatches / k` when `k = 0`). -/
def sample_and_check (raw_A raw_B : List Bool) (spec : SampleSpec)
    (rnd : Nat → Nat) : Option (Rat × Nat × Nat) :=
  let n := raw_A.length
  if n = 0 then some (0, 0, 0)
  else
    let k : Int := min (specSize spec n) (n : Int)
    match pySample n k rnd with
    | none => none
    | some idxs =>
        match countMismatches raw_A raw_B idxs with
        | none => none
        | some mismatches =>
            if k = 0 then none
            else some ((mismatches : Rat) / (k : Rat), mismatches, k.toNat)

end BB84

namespace EveSim

open BB84

/-- Loop body of `eve_intercept_resend` in `bb84_eve_sim.py`: Eve keeps the Alice
bit when her basis matches the Alice basis, otherwise records a fresh random bit
(`random.randint(0, 1)`, here the stream `rnd` at the position index). -/
def eveGo (rnd : Nat → Bool) :
    Nat → List Bool → List Basis → List Basis → List Bool
  | i, bit :: bits, Ba :: ras, Be :: res =>
      (if Ba = Be then bit else rnd i) :: eveGo rnd (i + 1) bits ras res
  | _, _, _, _ => []

/-- `eve_intercept_resend(alice_bits, alice_bases, eve_bases)` from
`bb84_eve_sim.py`: returns `(out_bits, eve_bases[:])` - the bits Eve resends
and (a copy of) her own bases. -/
def eve_intercept_resend (alice_bits : List Bool)
    (alice_bases eve_bases : List Basis) (rnd : Nat → Bool) :
    List Bool × List Basis :=
  (eveGo rnd 0 alice_bits alice_bases eve_bases, eve_bases)

/-- Loop body of `bob_measure_against_eve`: Bob gets the Eve bit exactly when his
basis matches the Eve preparation basis, otherwise a fresh random bit; both
branches append a defined value to the `List[Optional[int]]` result. -/
def bobGo (rnd : Nat → Bool) :
    Nat → List Bool → List Basis → List Basis → List (Option Bool)
  | i, bE :: bits, Be :: res, Bb :: rbs =>
      (if Be = Bb then some bE else some (rnd i)) :: bobGo rnd (i + 1) bits res rbs
  | _, _, _, _ => []

/-- `bob_measure_against_eve(bits_from_eve, eve_bases, bob_bases)` from
`bb84_eve_sim.py`. -/
def bob_measure_against_eve (bits_from_eve : List Bool)
    (eve_bases bob_bases : List Basis) (rnd : Nat → Bool) :
    List (Option Bool) :=
  bobGo rnd 0 bits_from_eve eve_bases bob_bases

/-- `extract_raw_key` from `bb84_eve_sim.py`; its body is line-for-line the
body of `extract_raw_key` in `bb84_sim.py`. -/
def extract_raw_key (alice_bits : List Bool) (bob_meas : List (Option Bool))
    (alice_bases bob_bases : List Basis) : List Bool × List Bool × List Nat :=
  extractGo 0 alice_bits bob_meas alice_bases bob_bases

/-- `sample_and_qber(raw_A, raw_B, sample_fraction)` from `bb84_eve_sim.py`;
its body is line-for-line the body of `sample_and_check` in `bb84_sim.py`. -/
def sample_and_qber (raw_A raw_B : List Bool) (spec : SampleSpec)
    (rnd : Nat → Nat) : Option (Rat × Nat × Nat) :=
  let n := raw_A.length
  if n = 0 then some (0, 0, 0)
  else
    let k : Int := min (specSize spec n) (n : Int)
    match pySample n k rnd with
    | none => none
    | some idxs =>
        match countMismatches raw_A raw_B idxs with
        | none => none
        | some mismatches =>
            if k = 0 then none
            else some ((mismatches : Rat) / (k : Rat), mismatches, k.toNat)

end EveSim

namespace BB84

theorem extractGo_length_eq (as : List Bool) :
    ∀ (s : Nat) (ms : List (Option Bool)) (xs ys : List Basis),
      (extractGo s as ms xs ys).1.length = (extractGo s as ms xs ys).2.2.length ∧
      (extractGo s as ms xs ys).2.1.length = (extractGo s as ms xs ys).2.2.length := by
  induction as with
  | nil => intro s ms xs ys; exact ⟨rfl, rfl⟩
  | cons a as ih =>
    intro s ms xs ys
    cases ms with
    | nil => exact ⟨rfl, rfl⟩
    | cons m ms =>
      cases xs with
      | nil => exact ⟨rfl, rfl⟩
      | cons x xs =>
        cases ys with
        | nil => exact ⟨rfl, rfl⟩
        | cons y ys =>
          have h := ih (s + 1) ms xs ys
          by_cases hxy : x = y
          · cases m with
            | some v => simpa [extractGo, hxy] using h
            | none => simpa [extractGo, hxy] using h
          · simpa [extractGo, hxy] using h

theorem extractGo_kept_le (as : List Bool) :
    ∀ (s : Nat) (ms : List (Option Bool)) (xs ys : List Basis),
      (extractGo s as ms xs ys).2.2.length ≤
        min as.length (min ms.length (min xs.length ys.length)) := by
  induction as with
  | nil => intro s ms xs ys; simp [extractGo]
  | cons a as ih =>
    intro s ms xs ys
    cases ms with
    | nil => simp [extractGo]
    | cons m ms =>
      cases xs with
      | nil => simp [extractGo]
      | cons x xs =>
        cases ys with
        | nil => simp [extractGo]
        | cons y ys =>
          have h := ih (s + 1) ms xs ys
          by_cases hxy : x = y
          · cases m with
            | some v =>
              simp only [extractGo, hxy, if_true, List.length_cons]
              omega
            | none =>
              simp only [extractGo, hxy, if_true, List.length_cons]
              omega
          · simp only [extractGo, hxy, if_false, List.length_cons]
            omega

theorem extractGo_kept_ge (as : List Bool) :
    ∀ (s : Nat) (ms : List (Option Bool)) (xs ys : List Basis),
      ∀ x ∈ (extractGo s as ms xs ys).2.2, s ≤ x := by
  induction as with
  | nil => intro s ms xs ys x hx; simp [extractGo] at hx
  | cons a as ih =>
    intro s ms xs ys x hx
    cases ms with
    | nil => simp [extractGo] at hx
    | cons m ms =>
      cases xs with
      | nil => simp [extractGo] at hx
      | cons x1 xs =>
        cases ys with
        | nil => simp [extractGo] at hx
        | cons y1 ys =>
          by_cases hxy : x1 = y1
          · cases m with
            | some v =>
              simp only [extractGo, hxy, if_true, List.mem_cons] at hx
              rcases hx with rfl | hx
              · exact Nat.le_refl _
              · exact Nat.le_of_succ_le (ih (s + 1) ms xs ys x hx)
            | none =>
              simp only [extractGo, hxy, if_true] at hx
              exact Nat.le_of_succ_le (ih (s + 1) ms xs ys x hx)
          · simp only [extractGo, hxy, if_false] at hx
            exact Nat.le_of_succ_le (ih (s + 1) ms xs ys x hx)

theorem extractGo_kept_pairwise (as : List Bool) :
    ∀ (s : Nat) (ms : List (Option Bool)) (xs ys : List Basis),
      (extractGo s as ms xs ys).2.2.Pairwise (· < ·) := by
  induction as with
  | nil => intro s ms xs ys; simp [extractGo]
  | cons a as ih =>
    intro s ms xs ys
    cases ms with
    | nil => simp [extractGo]
    | cons m ms =>
      cases xs with
      | nil => simp [extractGo]
      | cons x xs =>
        cases ys with
        | nil => simp [extractGo]
        | cons y ys =>
          by_cases hxy : x = y
          · cases m with
            | some v =>
              simp only [extractGo, hxy, if_true]
              refine List.Pairwise.cons ?_ (ih (s + 1) ms xs ys)
              intro b hb
              exact Nat.lt_of_succ_le (extractGo_kept_ge as (s + 1) ms xs ys b hb)
            | none =>
              simp only [extractGo, hxy, if_true]
              exact ih (s + 1) ms xs ys
          · simp only [extractGo, hxy, if_false]
            exact ih (s + 1) ms xs ys

theorem extractGo_mem_kept (as : List Bool) :
    ∀ (s : Nat) (ms : List (Option Bool)) (xs ys : List Basis) (i : Nat),
      i ∈ (extractGo s as ms xs ys).2.2 ↔
        ∃ j, i = s + j ∧ j < as.length ∧ j < ms.length ∧ j < xs.length ∧
          j < ys.length ∧ xs.getD j Basis.R = ys.getD j Basis.R ∧
          ms.getD j none ≠ none := by
  induction as with
  | nil =>
    intro s ms xs ys i
    constructor
    · intro hx; exact absurd hx (List.not_mem_nil i)
    · rintro ⟨j, -, hj, -⟩; simp at hj
  | cons a as ih =>
    intro s ms xs ys i
    cases ms with
    | nil =>
      constructor
      · intro hx; exact absurd hx (List.not_mem_nil i)
      · rintro ⟨j, -, -, hj, -⟩; simp at hj
    | cons m ms =>
      cases xs with
      | nil =>
        constructor
        · intro hx; exact absurd hx (List.not_mem_nil i)
        · rintro ⟨j, -, -, -, hj, -⟩; simp at hj
      | cons x xs =>
        cases ys with
        | nil =>
          constructor
          · intro hx; exact absurd hx (List.not_mem_nil i)
          · rintro ⟨j, -, -, -, -, hj, -⟩; simp at hj
        | cons y ys =>
          by_cases hxy : x = y
          · cases m with
            | some v =>
              simp only [extractGo, hxy, if_true, List.mem_cons, ih (s + 1) ms xs ys i]
              constructor
              · rintro (rfl | ⟨j, rfl, hj1, hj2, hj3, hj4, hb, hm⟩)
                · exact ⟨0, by omega, by simp, by simp, by simp, by simp,
                    by simp [hxy], by simp⟩
                · exact ⟨j + 1, by omega, by simpa using hj1, by simpa using hj2,
                    by simpa using hj3, by simpa using hj4, by simpa using hb,
                    by simpa using hm⟩
              · rintro ⟨j, rfl, hj1, hj2, hj3, hj4, hb, hm⟩
                cases j with
                | zero => left; omega
                | succ j =>
                  right
                  simp only [List.length_cons] at hj1 hj2 hj3 hj4
                  exact ⟨j, by omega, by omega, by omega, by omega, by omega,
                    by simpa using hb, by simpa using hm⟩
            | none =>
              simp only [extractGo, hxy, if_true, ih (s + 1) ms xs ys i]
              constructor
              · rintro ⟨j, rfl, hj1, hj2, hj3, hj4, hb, hm⟩
                exact ⟨j + 1, by omega, by simpa using hj1, by simpa using hj2,
                  by simpa using hj3, by simpa using hj4, by simpa using hb,
                  by simpa using hm⟩
              · rintro ⟨j, rfl, hj1, hj2, hj3, hj4, hb, hm⟩
                cases j with
                | zero => simp at hm
                | succ j =>
                  simp only [List.length_cons] at hj1 hj2 hj3 hj4
                  exact ⟨j, by omega, by omega, by omega, by omega, by omega,
                    by simpa using hb, by simpa using hm⟩
          · simp only [extractGo, hxy, if_false, ih (s + 1) ms xs ys i]
            constructor
            · rintro ⟨j, rfl, hj1, hj2, hj3, hj4, hb, hm⟩
              exact ⟨j + 1, by omega, by simpa using hj1, by simpa using hj2,
                by simpa using hj3, by simpa using hj4, by simpa using hb,
                by simpa using hm⟩
            · rintro ⟨j, rfl, hj1, hj2, hj3, hj4, hb, hm⟩
              cases j with
              | zero => exact absurd (by simpa using hb) hxy
              | succ j =>
                simp only [List.length_cons] at hj1 hj2 hj3 hj4
                exact ⟨j, by omega, by omega, by omega, by omega, by omega,
                  by simpa using hb, by simpa using hm⟩

theorem extractGo_mapA (as : List Bool) :
    ∀ (s : Nat) (ms : List (Option Bool)) (xs ys : List Basis),
      (extractGo s as ms xs ys).2.2.map (fun i => as.getD (i - s) false) =
        (extractGo s as ms xs ys).1 := by
  induction as with
  | nil => intro s ms xs ys; rfl
  | cons a as ih =>
    intro s ms xs ys
    cases ms with
    | nil => rfl
    | cons m ms =>
      cases xs with
      | nil => rfl
      | cons x xs =>
        cases ys with
        | nil => rfl
        | cons y ys =>
          have hcongr :
              (extractGo (s + 1) as ms xs ys).2.2.map
                  (fun i => (a :: as).getD (i - s) false) =
                (extractGo (s + 1) as ms xs ys).1 := by
            rw [← ih (s + 1) ms xs ys]
            refine List.map_congr_left ?_
            intro i hi
            have hs : s + 1 ≤ i := extractGo_kept_ge as (s + 1) ms xs ys i hi
            have hsub : i - s = (i - (s + 1)) + 1 := by omega
            rw [hsub, List.getD_cons_succ]
          by_cases hxy : x = y
          · cases m with
            | some v =>
              simp only [extractGo, hxy, if_true, List.map_cons]
              rw [Nat.sub_self, List.getD_cons_zero, hcongr]
            | none =>
              simp only [extractGo, hxy, if_true]
              exact hcongr
          · simp only [extractGo, hxy, if_false]
            exact hcongr

theorem extractGo_mapB (as : List Bool) :
    ∀ (s : Nat) (ms : List (Option Bool)) (xs ys : List Basis),
      (extractGo s as ms xs ys).2.2.map (fun i => ms.getD (i - s) none) =
        (extractGo s as ms xs ys).2.1.map some := by
  induction as with
  | nil => intro s ms xs ys; rfl
  | cons a as ih =>
    intro s ms xs ys
    cases ms with
    | nil => rfl
    | cons m ms =>
      cases xs with
      | nil => rfl
      | cons x xs =>
        cases ys with
        | nil => rfl
        | cons y ys =>
          have hcongr :
              (extractGo (s + 1) as ms xs ys).2.2.map
                  (fun i => (m :: ms).getD (i - s) none) =
                (extractGo (s + 1) as ms xs ys).2.1.map some := by
            rw [← ih (s + 1) ms xs ys]
            refine List.map_congr_left ?_
            intro i hi
            have hs : s + 1 ≤ i := extractGo_kept_ge as (s + 1) ms xs ys i hi
            have hsub : i - s = (i - (s + 1)) + 1 := by omega
            rw [hsub, List.getD_cons_succ]
          by_cases hxy : x = y
          · cases m with
            | some v =>
              simp only [extractGo, hxy, if_true, List.map_cons]
              rw [Nat.sub_self, List.getD_cons_zero, hcongr]
            | none =>
              simp only [extractGo, hxy, if_true]
              exact hcongr
          · simp only [extractGo, hxy, if_false]
            exact hcongr

end BB84

namespace BB84

theorem measureGo_length (noise : Nat → Rat) (p : Rat) (bits : List Bool) :
    ∀ (s : Nat) (xs ys : List Basis),
      (measureGo noise p s bits xs ys).length =
        min bits.length (min xs.length ys.length) := by
  induction bits with
  | nil => intro s xs ys; simp [measureGo]
  | cons b bits ih =>
    intro s xs ys
    cases xs with
    | nil => simp [measureGo]
    | cons x xs =>
      cases ys with
      | nil => simp [measureGo]
      | cons y ys =>
        simp only [measureGo, List.length_cons, ih (s + 1) xs ys]
        omega

theorem extractGo_measure_honest (noise : Nat → Rat) (hn : ∀ i, 0 ≤ noise i)
    (bits : List Bool) :
    ∀ (s : Nat) (xs ys : List Basis),
      (extractGo s bits (measureGo noise 0 s bits xs ys) xs ys).1 =
        (extractGo s bits (measureGo noise 0 s bits xs ys) xs ys).2.1 := by
  induction bits with
  | nil => intro s xs ys; rfl
  | cons b bits ih =>
    intro s xs ys
    cases xs with
    | nil => rfl
    | cons x xs =>
      cases ys with
      | nil => rfl
      | cons y ys =>
        by_cases hxy : x = y
        · have hflip : decide (noise s < 0) = false := by
            simp only [decide_eq_false_iff_not, not_lt]
            exact hn s
          simp only [measureGo, hxy, if_true, hflip, Bool.xor_false, extractGo]
          exact congrArg (fun l => b :: l) (ih (s + 1) xs ys)
        · simp only [measureGo, hxy, if_false, extractGo]
          exact ih (s + 1) xs ys

theorem drawSample_subset (rnd : Nat → Nat) :
    ∀ (k : Nat) (pool : List Nat), ∀ x ∈ drawSample rnd k pool, x ∈ pool := by
  intro k
  induction k with
  | zero => intro pool x hx; simp [drawSample] at hx
  | succ k ih =>
    intro pool x hx
    by_cases hp : pool = []
    · simp [drawSample, hp] at hx
    · simp only [drawSample, if_neg hp, List.mem_cons] at hx
      rcases hx with rfl | hx
      · have hlen : 0 < pool.length := List.length_pos.mpr hp
        have hj : rnd k % pool.length < pool.length := Nat.mod_lt _ hlen
        rw [List.getD_eq_getElem _ _ hj]
        exact List.getElem_mem hj
      · exact List.erase_subset _ _ (ih _ x hx)

theorem drawSample_nodup (rnd : Nat → Nat) :
    ∀ (k : Nat) (pool : List Nat), pool.Nodup → (drawSample rnd k pool).Nodup := by
  intro k
  induction k with
  | zero => intro pool h; simp [drawSample]
  | succ k ih =>
    intro pool h
    by_cases hp : pool = []
    · simp [drawSample, hp]
    · simp only [drawSample, if_neg hp]
      refine List.Pairwise.cons ?_ (ih _ (List.Nodup.erase _ h))
      intro b hb
      have hbmem := drawSample_subset rnd k _ b hb
      have hne := ((List.Nodup.mem_erase_iff h).mp hbmem).1
      exact fun hxb => hne (hxb ▸ rfl)

theorem drawSample_length (rnd : Nat → Nat) :
    ∀ (k : Nat) (pool : List Nat),
      (drawSample rnd k pool).length = min k pool.length := by
  intro k
  induction k with
  | zero => intro pool; simp [drawSample]
  | succ k ih =>
    intro pool
    by_cases hp : pool = []
    · simp [drawSample, hp]
    · simp only [drawSample, if_neg hp, List.length_cons, ih]
      have hlen : 0 < pool.length := List.length_pos.mpr hp
      have hj : rnd k % pool.length < pool.length := Nat.mod_lt _ hlen
      have hmem : pool.getD (rnd k % pool.length) 0 ∈ pool := by
        rw [List.getD_eq_getElem _ _ hj]
        exact List.getElem_mem hj
      have herase := List.length_erase_add_one hmem
      omega

theorem pySample_spec (n : Nat) (k : Int) (rnd : Nat → Nat) (idxs : List Nat)
    (h : pySample n k rnd = some idxs) :
    0 ≤ k ∧ k ≤ (n : Int) ∧ idxs.Nodup ∧ idxs.length = min k.toNat n ∧
      ∀ i ∈ idxs, i < n := by
  rw [pySample] at h
  split at h
  · exact absurd h (by simp)
  · rename_i hcond
    push_neg at hcond
    injection h with h
    subst h
    refine ⟨not_lt.mp (by exact fun hlt => absurd hlt (by omega)), hcond.2, ?_, ?_, ?_⟩
    · exact drawSample_nodup rnd _ _ (List.nodup_range n)
    · rw [drawSample_length, List.length_range]
    · intro i hi
      have := drawSample_subset rnd _ _ i hi
      exact List.mem_range.mp this

theorem countMismatches_some (raw_A raw_B : List Bool) :
    ∀ idxs : List Nat, (∀ i ∈ idxs, i < raw_A.length ∧ i < raw_B.length) →
      ∃ c, countMismatches raw_A raw_B idxs = some c := by
  intro idxs
  induction idxs with
  | nil => intro _; exact ⟨0, rfl⟩
  | cons i is ih =>
    intro hall
    obtain ⟨hA, hB⟩ := hall i (List.mem_cons_self i is)
    obtain ⟨c, hc⟩ := ih (fun j hj => hall j (List.mem_cons_of_mem i hj))
    refine ⟨(if raw_A[i] != raw_B[i] then 1 else 0) + c, ?_⟩
    simp only [countMismatches, List.getElem?_eq_getElem hA,
      List.getElem?_eq_getElem hB, hc]

end BB84

namespace EveSim

open BB84

theorem eveGo_length (rnd : Nat → Bool) (bits : List Bool) :
    ∀ (s : Nat) (xs ys : List Basis),
      (eveGo rnd s bits xs ys).length =
        min bits.length (min xs.length ys.length) := by
  induction bits with
  | nil => intro s xs ys; simp [eveGo]
  | cons b bits ih =>
    intro s xs ys
    cases xs with
    | nil => simp [eveGo]
    | cons x xs =>
      cases ys with
      | nil => simp [eveGo]
      | cons y ys =>
        simp only [eveGo, List.length_cons, ih (s + 1) xs ys]
        omega

theorem bobGo_length (rnd : Nat → Bool) (bits : List Bool) :
    ∀ (s : Nat) (xs ys : List Basis),
      (bobGo rnd s bits xs ys).length =
        min bits.length (min xs.length ys.length) := by
  induction bits with
  | nil => intro s xs ys; simp [bobGo]
  | cons b bits ih =>
    intro s xs ys
    cases xs with
    | nil => simp [bobGo]
    | cons x xs =>
      cases ys with
      | nil => simp [bobGo]
      | cons y ys =>
        simp only [bobGo, List.length_cons, ih (s + 1) xs ys]
        omega

theorem eveGo_getElem (rnd : Nat → Bool) (bits : List Bool) :
    ∀ (s : Nat) (xs ys : List Basis) (j : Nat),
      j < bits.length → j < xs.length → j < ys.length →
      (eveGo rnd s bits xs ys)[j]? =
        some (if xs.getD j Basis.R = ys.getD j Basis.R
              then bits.getD j false else rnd (s + j)) := by
  induction bits with
  | nil => intro s xs ys j hj _ _; simp at hj
  | cons b bits ih =>
    intro s xs ys j hj1 hj2 hj3
    cases xs with
    | nil => simp at hj2
    | cons x xs =>
      cases ys with
      | nil => simp at hj3
      | cons y ys =>
        cases j with
        | zero => simp [eveGo]
        | succ j =>
          simp only [List.length_cons, Nat.succ_lt_succ_iff] at hj1 hj2 hj3
          have hrec := ih (s + 1) xs ys j hj1 hj2 hj3
          simp only [eveGo, List.getElem?_cons_succ, List.getD_cons_succ, hrec]
          have : s + 1 + j = s + (j + 1) := by omega
          rw [this]

theorem bobGo_getElem (rnd : Nat → Bool) (bits : List Bool) :
    ∀ (s : Nat) (xs ys : List Basis) (j : Nat),
      j < bits.length → j < xs.length → j < ys.length →
      (bobGo rnd s bits xs ys)[j]? =
        some (if xs.getD j Basis.R = ys.getD j Basis.R
              then some (bits.getD j false) else some (rnd (s + j))) := by
  induction bits with
  | nil => intro s xs ys j hj _ _; simp at hj
  | cons b bits ih =>
    intro s xs ys j hj1 hj2 hj3
    cases xs with
    | nil => simp at hj2
    | cons x xs =>
      cases ys with
      | nil => simp at hj3
      | cons y ys =>
        cases j with
        | zero => simp [bobGo]
        | succ j =>
          simp only [List.length_cons, Nat.succ_lt_succ_iff] at hj1 hj2 hj3
          have hrec := ih (s + 1) xs ys j hj1 hj2 hj3
          simp only [bobGo, List.getElem?_cons_succ, List.getD_cons_succ, hrec]
          have : s + 1 + j = s + (j + 1) := by omega
          rw [this]

theorem bobGo_ne_none (rnd : Nat → Bool) (bits : List Bool) :
    ∀ (s : Nat) (xs ys : List Basis),
      ∀ x ∈ bobGo rnd s bits xs ys, x ≠ none := by
  induction bits with
  | nil => intro s xs ys x hx; exact absurd hx (List.not_mem_nil x)
  | cons b bits ih =>
    intro s xs ys x hx
    cases xs with
    | nil => exact absurd hx (List.not_mem_nil x)
    | cons x1 xs =>
      cases ys with
      | nil => exact absurd hx (List.not_mem_nil x)
      | cons y1 ys =>
        simp only [bobGo, List.mem_cons] at hx
        rcases hx with rfl | hx
        · by_cases hxy : x1 = y1 <;> simp [hxy]
        · exact ih (s + 1) xs ys x hx

end EveSim

/-- Claim C9: when the sifted raw key is empty (`len(raw_A) == 0`), the QBER
estimator (`sample_and_check` in `bb84_sim.py` and the identical
`sample_and_qber` in `bb84_eve_sim.py`) returns exactly `(0.0, 0, 0)` and
raises no error. -/
theorem claim_C9 :
    (∀ (A B : List Bool) (s : BB84.SampleSpec) (r : Nat → Nat),
      EveSim.sample_and_qber A B s r = BB84.sample_and_check A B s r) ∧
    ∀ (B : List Bool) (spec : BB84.SampleSpec) (rnd : Nat → Nat),
      BB84.sample_and_check [] B spec rnd = some (0, 0, 0) :=
  ⟨fun _ _ _ _ => rfl, fun _ _ _ => rfl⟩

/-- Counterexample to claim C1: with a non-empty raw key (`N = 1`) and the
integer sample spec `0`, the estimator does not behave as `k = 1`: it reaches
the division `mismatches / k` with `k = 0` and raises `ZeroDivisionError`
(modelled as `none`), in both scripts. -/
theorem claim_C1_counterexample :
    BB84.sample_and_check [false] [false] (BB84.SampleSpec.int 0) (fun _ => 0) =
      none ∧
    EveSim.sample_and_qber [false] [false] (BB84.SampleSpec.int 0) (fun _ => 0) =
      none :=
  ⟨by decide, by decide⟩

/-- Claim C1 as amended: the `k = max(1, ...)` floor applies only to the
fractional sample spec, for which the estimator returns normally on a
non-empty raw key provided `raw_B` is at least as long as `raw_A` (otherwise
`raw_B[i]` raises `IndexError` for an unluckily sampled index); an integer
sample spec `k ≤ 0` with `N > 0` is NOT treated as `k = 1` - the call raises
(`ZeroDivisionError` when `k = 0`, `ValueError` from `random.sample` when
`k < 0`), modelled as `none`. -/
theorem claim_C1_amended :
    (∀ (A B : List Bool) (s : BB84.SampleSpec) (r : Nat → Nat),
      EveSim.sample_and_qber A B s r = BB84.sample_and_check A B s r) ∧
    (∀ (A B : List Bool) (q : Rat) (rnd : Nat → Nat), A ≠ [] →
      A.length ≤ B.length →
      (BB84.sample_and_check A B (BB84.SampleSpec.frac q) rnd).isSome = true) ∧
    (∀ (A B : List Bool) (k : Int) (rnd : Nat → Nat), A ≠ [] → k ≤ 0 →
      BB84.sample_and_check A B (BB84.SampleSpec.int k) rnd = none) := by
  refine ⟨fun _ _ _ _ => rfl, ?_, ?_⟩
  · intro A B q rnd hA hAB
    have hn : A.length ≠ 0 := fun h => hA (List.length_eq_zero.mp h)
    have h1 : (1 : Int) ≤ BB84.specSize (BB84.SampleSpec.frac q) A.length :=
      le_max_left _ _
    have hn1 : (1 : Int) ≤ (A.length : Int) := by omega
    have hkmin : (1 : Int) ≤
        min (BB84.specSize (BB84.SampleSpec.frac q) A.length) (A.length : Int) :=
      le_min h1 hn1
    have hcond :
        ¬(min (BB84.specSize (BB84.SampleSpec.frac q) A.length) (A.length : Int) < 0 ∨
          (A.length : Int) <
            min (BB84.specSize (BB84.SampleSpec.frac q) A.length) (A.length : Int)) := by
      push_neg
      exact ⟨by omega, min_le_right _ _⟩
    have hk0 :
        ¬(min (BB84.specSize (BB84.SampleSpec.frac q) A.length) (A.length : Int) = 0) := by
      omega
    have hall : ∀ i ∈ BB84.drawSample rnd
        (min (BB84.specSize (BB84.SampleSpec.frac q) A.length)
          (A.length : Int)).toNat (List.range A.length),
        i < A.length ∧ i < B.length := by
      intro i hi
      have hr := List.mem_range.mp (BB84.drawSample_subset rnd _ _ i hi)
      exact ⟨hr, lt_of_lt_of_le hr hAB⟩
    obtain ⟨c, hc⟩ := BB84.countMismatches_some A B _ hall
    simp only [BB84.sample_and_check]
    rw [if_neg hn, BB84.pySample, if_neg hcond]
    simp [hk0, hc]
  · intro A B k rnd hA hk
    have hn : A.length ≠ 0 := fun h => hA (List.length_eq_zero.mp h)
    have hmin : min (BB84.specSize (BB84.SampleSpec.int k) A.length) (A.length : Int) = k := by
      simp only [BB84.specSize]
      exact min_eq_left (by omega)
    simp only [BB84.sample_and_check]
    rw [if_neg hn, hmin]
    rcases lt_or_eq_of_le hk with hlt | heq
    · rw [BB84.pySample, if_pos (Or.inl hlt)]
    · subst heq
      rw [BB84.pySample, if_neg (by simp)]
      simp [BB84.drawSample, BB84.countMismatches]

/-- Witness for claim C1 as amended, at concrete inputs. -/
theorem claim_C1_amended_witness :
    EveSim.sample_and_qber [] [] (BB84.SampleSpec.int 0) (fun _ => 0) =
      BB84.sample_and_check [] [] (BB84.SampleSpec.int 0) (fun _ => 0) ∧
    (BB84.sample_and_check [true] [false] (BB84.SampleSpec.frac (1 / 2))
        (fun _ => 0)).isSome = true ∧
    BB84.sample_and_check [true] [] (BB84.SampleSpec.int 0) (fun _ => 0) = none :=
  ⟨claim_C1_amended.1 [] [] (BB84.SampleSpec.int 0) (fun _ => 0),
   claim_C1_amended.2.1 [true] [false] (1 / 2) (fun _ => 0) (by decide) (by decide),
   claim_C1_amended.2.2 [true] [] 0 (fun _ => 0) (by decide) (by decide)⟩

/-- Counterexample to claim C4: on sequences of unequal length none of the
four components fails fast; each zips its inputs, silently truncates to the
shortest one, and returns a normal result computed from the truncated prefix
(here: first list of length 2 against basis lists of length 1). -/
theorem claim_C4_counterexample :
    BB84.measure [true, true] [BB84.Basis.R, BB84.Basis.R] [BB84.Basis.R] 0
        (fun _ => 0) = [some true] ∧
    BB84.extract_raw_key [true, true] [some true]
        [BB84.Basis.R, BB84.Basis.R] [BB84.Basis.R] = ([true], [true], [0]) ∧
    EveSim.eve_intercept_resend [true, true] [BB84.Basis.R, BB84.Basis.R]
        [BB84.Basis.R] (fun _ => false) = ([true], [BB84.Basis.R]) ∧
    EveSim.bob_measure_against_eve [true, true] [BB84.Basis.R, BB84.Basis.R]
        [BB84.Basis.R] (fun _ => false) = [some true] :=
  ⟨by decide, by decide, by decide, by decide⟩

/-- Claim C4 as amended: no component validates lengths; `measure`,
`eve_intercept_resend` and `bob_measure_against_eve` return an output of
length `min` of their input lengths (zip truncation), and `extract_raw_key`
keeps at most `min` of its four input lengths positions; none of them can
fail. -/
theorem claim_C4_amended :
    (∀ (bits : List Bool) (ba bb : List BB84.Basis) (p : Rat) (noise : Nat → Rat),
      (BB84.measure bits ba bb p noise).length =
        min bits.length (min ba.length bb.length)) ∧
    (∀ (as : List Bool) (ms : List (Option Bool)) (xs ys : List BB84.Basis),
      (BB84.extract_raw_key as ms xs ys).2.2.length ≤
        min as.length (min ms.length (min xs.length ys.length))) ∧
    (∀ (bits : List Bool) (ba be : List BB84.Basis) (rnd : Nat → Bool),
      (EveSim.eve_intercept_resend bits ba be rnd).1.length =
        min bits.length (min ba.length be.length) ∧
      (EveSim.eve_intercept_resend bits ba be rnd).2 = be) ∧
    (∀ (b : List Bool) (eb bb : List BB84.Basis) (rnd : Nat → Bool),
      (EveSim.bob_measure_against_eve b eb bb rnd).length =
        min b.length (min eb.length bb.length)) :=
  ⟨fun bits ba bb p noise => BB84.measureGo_length noise p bits 0 ba bb,
   fun as ms xs ys => BB84.extractGo_kept_le as 0 ms xs ys,
   fun bits ba be rnd => ⟨EveSim.eveGo_length rnd bits 0 ba be, rfl⟩,
   fun b eb bb rnd => EveSim.bobGo_length rnd b 0 eb bb⟩

/-- Claim C3: in the honest path with `noise_flip_prob = 0`, the two raw keys
extracted by `extract_raw_key` from the output of `measure` are identical
lists (so they agree at every index), for any input lengths.  The hypothesis
states the `random.random()` contract that every drawn noise value is
nonnegative. -/
theorem claim_C3 (bits : List Bool) (alice_bases bob_bases : List BB84.Basis)
    (noise : Nat → Rat) (hn : ∀ i, 0 ≤ noise i) :
    (BB84.extract_raw_key bits
        (BB84.measure bits alice_bases bob_bases 0 noise)
        alice_bases bob_bases).1 =
    (BB84.extract_raw_key bits
        (BB84.measure bits alice_bases bob_bases 0 noise)
        alice_bases bob_bases).2.1 :=
  BB84.extractGo_measure_honest noise hn bits 0 alice_bases bob_bases

/-- Witness for claim C3 at a concrete input. -/
theorem claim_C3_witness :
    (BB84.extract_raw_key [true]
        (BB84.measure [true] [BB84.Basis.R] [BB84.Basis.R] 0 (fun _ => 0))
        [BB84.Basis.R] [BB84.Basis.R]).1 =
    (BB84.extract_raw_key [true]
        (BB84.measure [true] [BB84.Basis.R] [BB84.Basis.R] 0 (fun _ => 0))
        [BB84.Basis.R] [BB84.Basis.R]).2.1 :=
  claim_C3 [true] [BB84.Basis.R] [BB84.Basis.R] (fun _ => 0) (fun _ => le_refl 0)

/-- Claim C2: at every position where the Eve basis equals the Alice basis and
the Bob basis equals the Eve basis, the bit Bob measures through the
`eve_intercept_resend` / `bob_measure_against_eve` chain is exactly the
original Alice bit. -/
theorem claim_C2 (alice_bits : List Bool)
    (alice_bases eve_bases bob_bases : List BB84.Basis)
    (rndE rndB : Nat → Bool) (i : Nat)
    (h1 : i < alice_bits.length) (h2 : i < alice_bases.length)
    (h3 : i < eve_bases.length) (h4 : i < bob_bases.length)
    (hEA : eve_bases.getD i BB84.Basis.R = alice_bases.getD i BB84.Basis.R)
    (hBE : bob_bases.getD i BB84.Basis.R = eve_bases.getD i BB84.Basis.R) :
    (EveSim.bob_measure_against_eve
        (EveSim.eve_intercept_resend alice_bits alice_bases eve_bases rndE).1
        (EveSim.eve_intercept_resend alice_bits alice_bases eve_bases rndE).2
        bob_bases rndB)[i]? = some (some (alice_bits.getD i false)) := by
  have hlenE : i < (EveSim.eveGo rndE 0 alice_bits alice_bases eve_bases).length := by
    rw [EveSim.eveGo_length]
    omega
  have he := EveSim.eveGo_getElem rndE alice_bits 0 alice_bases eve_bases i h1 h2 h3
  have hbob := EveSim.bobGo_getElem rndB
    (EveSim.eveGo rndE 0 alice_bits alice_bases eve_bases) 0 eve_bases bob_bases i
    hlenE h3 h4
  have hval : (EveSim.eveGo rndE 0 alice_bits alice_bases eve_bases).getD i false =
      alice_bits.getD i false := by
    rw [List.getD_eq_getElem?_getD, he, if_pos hEA.symm]
    rfl
  simp only [EveSim.bob_measure_against_eve, EveSim.eve_intercept_resend]
  rw [hbob, if_pos hBE.symm, hval]

/-- Witness for claim C2 at a concrete input. -/
theorem claim_C2_witness :
    (EveSim.bob_measure_against_eve
        (EveSim.eve_intercept_resend [true] [BB84.Basis.R] [BB84.Basis.R]
          (fun _ => false)).1
        (EveSim.eve_intercept_resend [true] [BB84.Basis.R] [BB84.Basis.R]
          (fun _ => false)).2
        [BB84.Basis.R] (fun _ => false))[0]? = some (some true) :=
  claim_C2 [true] [BB84.Basis.R] [BB84.Basis.R] [BB84.Basis.R]
    (fun _ => false) (fun _ => false) 0
    (by decide) (by decide) (by decide) (by decide) (by decide) (by decide)

/-- Claim C8: `eve_intercept_resend` returns as its basis output exactly the
Eve basis sequence, and its bit output at every in-range position equals the
Alice bit when the Alice and Eve bases agree there, and the fresh random bit
drawn at that position otherwise. -/
theorem claim_C8 (alice_bits : List Bool)
    (alice_bases eve_bases : List BB84.Basis) (rnd : Nat → Bool) (i : Nat)
    (h1 : i < alice_bits.length) (h2 : i < alice_bases.length)
    (h3 : i < eve_bases.length) :
    (EveSim.eve_intercept_resend alice_bits alice_bases eve_bases rnd).2 =
      eve_bases ∧
    (EveSim.eve_intercept_resend alice_bits alice_bases eve_bases rnd).1[i]? =
      some (if alice_bases.getD i BB84.Basis.R = eve_bases.getD i BB84.Basis.R
            then alice_bits.getD i false else rnd i) := by
  refine ⟨rfl, ?_⟩
  have he := EveSim.eveGo_getElem rnd alice_bits 0 alice_bases eve_bases i h1 h2 h3
  simpa [EveSim.eve_intercept_resend] using he

/-- Witness for claim C8 at a concrete input. -/
theorem claim_C8_witness :
    (EveSim.eve_intercept_resend [true] [BB84.Basis.R] [BB84.Basis.D]
        (fun _ => false)).2 = [BB84.Basis.D] ∧
    (EveSim.eve_intercept_resend [true] [BB84.Basis.R] [BB84.Basis.D]
        (fun _ => false)).1[0]? = some false :=
  claim_C8 [true] [BB84.Basis.R] [BB84.Basis.D] (fun _ => false) 0
    (by decide) (by decide) (by decide)

/-- Claim C10: in the eavesdropper path the Bob measurement list contains no
undefined (`none`) entry, so `extract_raw_key` applied to it keeps exactly the
positions where the Alice and Bob bases agree - the is-defined check never
rules out a position. -/
theorem claim_C10 (bits_from_eve : List Bool)
    (eve_bases bob_bases : List BB84.Basis) (rnd : Nat → Bool)
    (alice_bits : List Bool) (alice_bases : List BB84.Basis) (N : Nat)
    (hF : bits_from_eve.length = N) (hE : eve_bases.length = N)
    (hB : bob_bases.length = N) (hA : alice_bits.length = N)
    (hAB : alice_bases.length = N) :
    (∀ x ∈ EveSim.bob_measure_against_eve bits_from_eve eve_bases bob_bases rnd,
      x ≠ none) ∧
    (∀ i, i ∈ (EveSim.extract_raw_key alice_bits
        (EveSim.bob_measure_against_eve bits_from_eve eve_bases bob_bases rnd)
        alice_bases bob_bases).2.2 ↔
      i < N ∧ alice_bases.getD i BB84.Basis.R = bob_bases.getD i BB84.Basis.R) := by
  have hnn := EveSim.bobGo_ne_none rnd bits_from_eve 0 eve_bases bob_bases
  refine ⟨hnn, ?_⟩
  intro i
  have hlen :
      (EveSim.bob_measure_against_eve bits_from_eve eve_bases bob_bases rnd).length =
        N := by
    rw [EveSim.bob_measure_against_eve, EveSim.bobGo_length]
    omega
  rw [EveSim.extract_raw_key, BB84.extractGo_mem_kept]
  constructor
  · rintro ⟨j, rfl, hj1, hj2, hj3, hj4, hb, -⟩
    exact ⟨by omega, by simpa using hb⟩
  · rintro ⟨hiN, hb⟩
    refine ⟨i, by omega, by omega, by omega, by omega, by omega,
      by simpa using hb, ?_⟩
    have hi' : i <
        (EveSim.bob_measure_against_eve bits_from_eve eve_bases bob_bases rnd).length := by
      omega
    have hmem :
        (EveSim.bob_measure_against_eve bits_from_eve eve_bases bob_bases
            rnd).getD i none ∈
          EveSim.bob_measure_against_eve bits_from_eve eve_bases bob_bases rnd := by
      rw [List.getD_eq_getElem _ _ hi']
      exact List.getElem_mem hi'
    exact hnn _ hmem

/-- Witness for claim C10 at a concrete input. -/
theorem claim_C10_witness :
    (∀ x ∈ EveSim.bob_measure_against_eve [true] [BB84.Basis.R] [BB84.Basis.R]
        (fun _ => false), x ≠ none) ∧
    (∀ i, i ∈ (EveSim.extract_raw_key [false]
        (EveSim.bob_measure_against_eve [true] [BB84.Basis.R] [BB84.Basis.R]
          (fun _ => false))
        [BB84.Basis.R] [BB84.Basis.R]).2.2 ↔
      i < 1 ∧ [BB84.Basis.R].getD i BB84.Basis.R =
        [BB84.Basis.R].getD i BB84.Basis.R) :=
  claim_C10 [true] [BB84.Basis.R] [BB84.Basis.R] (fun _ => false)
    [false] [BB84.Basis.R] 1 rfl rfl rfl rfl rfl

/-- Claim C5: `extract_raw_key` keeps position `i` iff the Alice and receiver
bases agree at `i` and the measurement at `i` is defined; the kept indices are
strictly increasing (stable filter), and the `j`-th output entries are the
input entries at the `j`-th kept index. -/
theorem claim_C5 (alice_bits : List Bool) (measured : List (Option Bool))
    (alice_bases bob_bases : List BB84.Basis) (N : Nat)
    (hA : alice_bits.length = N) (hM : measured.length = N)
    (hX : alice_bases.length = N) (hY : bob_bases.length = N) :
    (∀ i, i ∈ (BB84.extract_raw_key alice_bits measured alice_bases
        bob_bases).2.2 ↔
      i < N ∧ alice_bases.getD i BB84.Basis.R = bob_bases.getD i BB84.Basis.R ∧
        measured.getD i none ≠ none) ∧
    (BB84.extract_raw_key alice_bits measured alice_bases
        bob_bases).2.2.Pairwise (· < ·) ∧
    (∀ (j i0 : Nat), (BB84.extract_raw_key alice_bits measured alice_bases
        bob_bases).2.2[j]? = some i0 →
      (BB84.extract_raw_key alice_bits measured alice_bases bob_bases).1[j]? =
        some (alice_bits.getD i0 false) ∧
      ∃ v, (BB84.extract_raw_key alice_bits measured alice_bases
          bob_bases).2.1[j]? = some v ∧
        measured.getD i0 none = some v) := by
  refine ⟨?_,
    BB84.extractGo_kept_pairwise alice_bits 0 measured alice_bases bob_bases,
    ?_⟩
  · intro i
    rw [BB84.extract_raw_key, BB84.extractGo_mem_kept]
    constructor
    · rintro ⟨j, rfl, hj1, hj2, hj3, hj4, hb, hm⟩
      exact ⟨by omega, by simpa using hb, by simpa using hm⟩
    · rintro ⟨hiN, hb, hm⟩
      exact ⟨i, by omega, by omega, by omega, by omega, by omega,
        by simpa using hb, by simpa using hm⟩
  · intro j i0 hj
    rw [BB84.extract_raw_key] at hj ⊢
    refine ⟨?_, ?_⟩
    · rw [← BB84.extractGo_mapA alice_bits 0 measured alice_bases bob_bases,
        List.getElem?_map, hj]
      simp
    · have h1 : ((BB84.extractGo 0 alice_bits measured alice_bases
          bob_bases).2.1.map some)[j]? = some (measured.getD i0 none) := by
        rw [← BB84.extractGo_mapB alice_bits 0 measured alice_bases bob_bases,
          List.getElem?_map, hj]
        simp
      rw [List.getElem?_map] at h1
      cases hrB : (BB84.extractGo 0 alice_bits measured alice_bases
          bob_bases).2.1[j]? with
      | none => rw [hrB] at h1; simp at h1
      | some v =>
        rw [hrB] at h1
        simp only [Option.map_some', Option.some.injEq] at h1
        exact ⟨v, rfl, h1.symm⟩

/-- Witness for claim C5 at a concrete input. -/
theorem claim_C5_witness :
    (∀ i, i ∈ (BB84.extract_raw_key [true] [some true] [BB84.Basis.R]
        [BB84.Basis.R]).2.2 ↔
      i < 1 ∧ [BB84.Basis.R].getD i BB84.Basis.R =
          [BB84.Basis.R].getD i BB84.Basis.R ∧
        [some true].getD i none ≠ none) ∧
    (BB84.extract_raw_key [true] [some true] [BB84.Basis.R]
        [BB84.Basis.R]).2.2.Pairwise (· < ·) ∧
    (∀ (j i0 : Nat), (BB84.extract_raw_key [true] [some true] [BB84.Basis.R]
        [BB84.Basis.R]).2.2[j]? = some i0 →
      (BB84.extract_raw_key [true] [some true] [BB84.Basis.R]
          [BB84.Basis.R]).1[j]? = some ([true].getD i0 false) ∧
      ∃ v, (BB84.extract_raw_key [true] [some true] [BB84.Basis.R]
          [BB84.Basis.R]).2.1[j]? = some v ∧
        [some true].getD i0 none = some v) :=
  claim_C5 [true] [some true] [BB84.Basis.R] [BB84.Basis.R] 1 rfl rfl rfl rfl

/-- Claim C6: on equal-length inputs of length `N`, the three outputs of
`extract_raw_key` have a common length at most `N`, and the kept index list is
strictly increasing; `extract_raw_key` of the eavesdropper script is the same
function. -/
theorem claim_C6 (alice_bits : List Bool) (measured : List (Option Bool))
    (alice_bases bob_bases : List BB84.Basis) (N : Nat)
    (hA : alice_bits.length = N) (hM : measured.length = N)
    (hX : alice_bases.length = N) (hY : bob_bases.length = N) :
    (∀ (a : List Bool) (m : List (Option Bool)) (x y : List BB84.Basis),
      EveSim.extract_raw_key a m x y = BB84.extract_raw_key a m x y) ∧
    (BB84.extract_raw_key alice_bits measured alice_bases bob_bases).1.length =
      (BB84.extract_raw_key alice_bits measured alice_bases
        bob_bases).2.1.length ∧
    (BB84.extract_raw_key alice_bits measured alice_bases
        bob_bases).2.1.length =
      (BB84.extract_raw_key alice_bits measured alice_bases
        bob_bases).2.2.length ∧
    (BB84.extract_raw_key alice_bits measured alice_bases
        bob_bases).2.2.length ≤ N ∧
    (BB84.extract_raw_key alice_bits measured alice_bases
        bob_bases).2.2.Pairwise (· < ·) := by
  obtain ⟨e1, e2⟩ :=
    BB84.extractGo_length_eq alice_bits 0 measured alice_bases bob_bases
  have hle := BB84.extractGo_kept_le alice_bits 0 measured alice_bases bob_bases
  refine ⟨fun _ _ _ _ => rfl, ?_, ?_, ?_,
    BB84.extractGo_kept_pairwise alice_bits 0 measured alice_bases bob_bases⟩
  · rw [BB84.extract_raw_key]; omega
  · rw [BB84.extract_raw_key]; omega
  · rw [BB84.extract_raw_key]; omega

/-- Witness for claim C6 at a concrete input. -/
theorem claim_C6_witness :
    (∀ (a : List Bool) (m : List (Option Bool)) (x y : List BB84.Basis),
      EveSim.extract_raw_key a m x y = BB84.extract_raw_key a m x y) ∧
    (BB84.extract_raw_key [true] [some true] [BB84.Basis.R]
        [BB84.Basis.R]).1.length =
      (BB84.extract_raw_key [true] [some true] [BB84.Basis.R]
        [BB84.Basis.R]).2.1.length ∧
    (BB84.extract_raw_key [true] [some true] [BB84.Basis.R]
        [BB84.Basis.R]).2.1.length =
      (BB84.extract_raw_key [true] [some true] [BB84.Basis.R]
        [BB84.Basis.R]).2.2.length ∧
    (BB84.extract_raw_key [true] [some true] [BB84.Basis.R]
        [BB84.Basis.R]).2.2.length ≤ 1 ∧
    (BB84.extract_raw_key [true] [some true] [BB84.Basis.R]
        [BB84.Basis.R]).2.2.Pairwise (· < ·) :=
  claim_C6 [true] [some true] [BB84.Basis.R] [BB84.Basis.R] 1 rfl rfl rfl rfl

/-- Claim C7: whenever the QBER estimator returns normally, the returned
sample size equals the clamped `min` of the specified size
(`max(1, round(N * f))` for a fraction `f`, the integer itself otherwise)
and `N = len(raw_A)`, it never exceeds `N`, and the sampled index list is
drawn without replacement from `[0, N)`: it has no duplicates, has exactly
the returned sample size as length, and every sampled index is below `N`. -/
theorem claim_C7 (raw_A raw_B : List Bool) (spec : BB84.SampleSpec)
    (rnd : Nat → Nat) (q : Rat) (m kk : Nat)
    (h : BB84.sample_and_check raw_A raw_B spec rnd = some (q, m, kk)) :
    (∀ (A B : List Bool) (s : BB84.SampleSpec) (r : Nat → Nat),
      EveSim.sample_and_qber A B s r = BB84.sample_and_check A B s r) ∧
    kk = (min (BB84.specSize spec raw_A.length) (raw_A.length : Int)).toNat ∧
    kk ≤ raw_A.length ∧
    ∀ idxs, BB84.pySample raw_A.length
        (min (BB84.specSize spec raw_A.length) (raw_A.length : Int)) rnd =
          some idxs →
      idxs.Nodup ∧ idxs.length = kk ∧ ∀ i ∈ idxs, i < raw_A.length := by
  refine ⟨fun _ _ _ _ => rfl, ?_⟩
  simp only [BB84.sample_and_check] at h
  split at h
  next hn =>
    simp only [Option.some.injEq, Prod.mk.injEq] at h
    obtain ⟨-, -, hk⟩ := h
    subst hk
    have hmn : min (BB84.specSize spec raw_A.length) (raw_A.length : Int) ≤
        (raw_A.length : Int) := min_le_right _ _
    refine ⟨by omega, by omega, ?_⟩
    intro idxs hidx
    obtain ⟨hge, hle2, hnd, hlen, hmem⟩ := BB84.pySample_spec _ _ _ _ hidx
    exact ⟨hnd, by omega, hmem⟩
  next hn =>
    split at h
    next heq => exact absurd h (by simp)
    next idxs heq =>
      split at h
      next hcm => exact absurd h (by simp)
      next mism hcm =>
        split at h
        next hk0 => exact absurd h (by simp)
        next hk0 =>
          simp only [Option.some.injEq, Prod.mk.injEq] at h
          obtain ⟨-, -, hk⟩ := h
          subst hk
          obtain ⟨hge, hle, hnd, hlen, hmem⟩ := BB84.pySample_spec _ _ _ _ heq
          refine ⟨rfl, by omega, ?_⟩
          intro idxs2 hidx2
          rw [heq] at hidx2
          injection hidx2 with hidx2
          subst hidx2
          exact ⟨hnd, by omega, hmem⟩

/-- Witness for claim C7 at a concrete input. -/
theorem claim_C7_witness :
    (∀ (A B : List Bool) (s : BB84.SampleSpec) (r : Nat → Nat),
      EveSim.sample_and_qber A B s r = BB84.sample_and_check A B s r) ∧
    1 = (min (BB84.specSize (BB84.SampleSpec.int 1) [true].length)
        ([true].length : Int)).toNat ∧
    1 ≤ [true].length ∧
    ∀ idxs, BB84.pySample [true].length
        (min (BB84.specSize (BB84.SampleSpec.int 1) [true].length)
          ([true].length : Int)) (fun _ => 0) = some idxs →
      idxs.Nodup ∧ idxs.length = 1 ∧ ∀ i ∈ idxs, i < [true].length :=
  claim_C7 [true] [false] (BB84.SampleSpec.int 1) (fun _ => 0) 1 1 1
    (by norm_num [BB84.sample_and_check, BB84.specSize, BB84.pySample,
      BB84.drawSample, BB84.countMismatches, List.range_succ])
